import Mathlib

/-!
Verification development for the flecs storage-engine excerpt.

Part A embeds, line by line, the parsing utilities of
src/src/addons/meta/c_utils.c over lists of characters: a C string is a
list of characters, a pointer into it is the remaining suffix, and the
NUL terminator is the end of the list.  Functions that can dereference a
NULL pointer or copy from a NULL-derived length are given an explicit
undefined-behavior result so that theorems can show those paths are or
are not reached.

Part B models the direct-access table engine declared in
src/include/flecs/private/table.h.  Its implementation is not part of
the excerpt, so those definitions are modelled from the specification
text, as their doc comments state.
-/

/-- Character list of a string literal, used to transcribe C literals. -/
def cs (s : String) : List Char := s.data

/-- The opening brace character, written by code point. -/
def obr : Char := Char.ofNat 123

/-- The closing brace character, written by code point. -/
def cbr : Char := Char.ofNat 125

/-- C `isspace` in the default locale: space and the five control
whitespace characters 9..13. -/
def isSpaceC (c : Char) : Bool := decide (c.toNat = 32 ∨ (9 ≤ c.toNat ∧ c.toNat ≤ 13))

/-- C `isalpha` in the default locale. -/
def isAlphaC (c : Char) : Bool :=
  decide ((65 ≤ c.toNat ∧ c.toNat ≤ 90) ∨ (97 ≤ c.toNat ∧ c.toNat ≤ 122))

/-- C `isdigit`. -/
def isDigitC (c : Char) : Bool := decide (48 ≤ c.toNat ∧ c.toNat ≤ 57)

/-- Modelled from the spec: `flecs_parse_ws_eol` is declared outside the
excerpt; per its use in the parser it skips whitespace including
end-of-line characters and never fails. -/
def flecs_parse_ws_eol : List Char → List Char
  | [] => []
  | c :: rest => if isSpaceC c then flecs_parse_ws_eol rest else c :: rest

/-- A character that opens a scope in `skip_scope`. -/
def isOpenCh (c : Char) : Bool := c == '(' || c == '<'

/-- A character that closes a scope in `skip_scope`. -/
def isCloseCh (c : Char) : Bool := c == ')' || c == '>'

/-- Result of `skip_scope`: the returned pointer (as the remaining
suffix), the NULL return after a reported error, or an out-of-bounds
access to the 256-entry `stack` array (which the embedding makes
explicit instead of leaving undefined). -/
inductive SkipRes where
  | ok (rest : List Char)
  | err
  | oob
  deriving DecidableEq, Repr

/-- Loop of `skip_scope` (c_utils.c lines 57-81).  The C `stack` array
together with `sp` is modelled as a list of the currently open scope
characters, most recent first; `sp` is the length of that list.  A write
`stack[sp] = ch` with `sp` at or past 256 would be out of bounds and is
reported as `SkipRes.oob`; the code increments `sp` and returns an error
once it reaches 256, which keeps every access in bounds (proved below).
The C loop breaks when `sp` is zero after advancing `ptr`; after an
opener `sp` is nonzero, so only the other two branches test for it. -/
def skipScopeLoop : List Char → List Char → SkipRes
  | _, [] => SkipRes.ok []
  | stack, c :: rest =>
    if isOpenCh c then
      if 256 ≤ stack.length then SkipRes.oob
      else if 256 ≤ stack.length + 1 then SkipRes.err
      else skipScopeLoop (c :: stack) rest
    else if isCloseCh c then
      match stack with
      | [] => SkipRes.err
      | top :: stack2 =>
        if (c == '>' && !(top == '<')) || (c == ')' && !(top == '(')) then SkipRes.err
        else if stack2.length = 0 then SkipRes.ok rest
        else skipScopeLoop stack2 rest
    else
      if stack.length = 0 then SkipRes.ok rest
      else skipScopeLoop stack rest

/-- `skip_scope` (c_utils.c lines 50-86). -/
def skip_scope (s : List Char) : SkipRes := skipScopeLoop [] s

/-- Follows the claim words (specification side): the same bracket scan
with an unbounded stack of openers, erroring exactly when the nesting
depth of openers reaches 256 or a closer does not match the most
recently opened unclosed bracket (including a closer with no scope
open). -/
def scopeSpecLoop : List Char → List Char → SkipRes
  | _, [] => SkipRes.ok []
  | stack, c :: rest =>
    if isOpenCh c then
      if 256 ≤ stack.length + 1 then SkipRes.err
      else scopeSpecLoop (c :: stack) rest
    else if isCloseCh c then
      match stack with
      | [] => SkipRes.err
      | top :: stack2 =>
        if (c == '>' && !(top == '<')) || (c == ')' && !(top == '(')) then SkipRes.err
        else if stack2.length = 0 then SkipRes.ok rest
        else scopeSpecLoop stack2 rest
    else
      if stack.length = 0 then SkipRes.ok rest
      else scopeSpecLoop stack rest

/-- Specification-side scan started with no open scope. -/
def scope_spec (s : List Char) : SkipRes := scopeSpecLoop [] s

/-- Depth contribution of one character: openers count one up, closers
one down. -/
def depthDelta (c : Char) : Int :=
  if isOpenCh c then 1 else if isCloseCh c then -1 else 0

/-- Net bracket depth of a character list. -/
def netDepth : List Char → Int
  | [] => 0
  | c :: l => depthDelta c + netDepth l

theorem netDepth_append (l1 l2 : List Char) :
    netDepth (l1 ++ l2) = netDepth l1 + netDepth l2 := by
  induction l1 with
  | nil => simp [netDepth]
  | cons c l ih => simp [netDepth, ih]; ring

/-- The loop never performs an out-of-bounds stack access as long as it
starts with at most 255 open scopes. -/
theorem skipScopeLoop_no_oob (s : List Char) :
    ∀ stack : List Char, stack.length ≤ 255 → skipScopeLoop stack s ≠ SkipRes.oob := by
  induction s with
  | nil => intro stack _ h; simp [skipScopeLoop] at h
  | cons c rest ih =>
    intro stack hlen h
    by_cases hop : isOpenCh c
    · have hnot : ¬ 256 ≤ stack.length := by omega
      by_cases hfull : 256 ≤ stack.length + 1
      · simp [skipScopeLoop, hop, hnot, hfull] at h
      · have : skipScopeLoop (c :: stack) rest ≠ SkipRes.oob := by
          apply ih; simp; omega
        simp [skipScopeLoop, hop, hnot, hfull] at h
        exact this h
    · by_cases hcl : isCloseCh c
      · match stack with
        | [] => simp [skipScopeLoop, hop, hcl] at h
        | top :: stack2 =>
          by_cases hmis : ((c == '>' && !(top == '<')) || (c == ')' && !(top == '('))) = true
          · simp [skipScopeLoop, hop, hcl, hmis] at h
          · by_cases hz : stack2.length = 0
            · simp [skipScopeLoop, hop, hcl, hmis, hz] at h
            · have : skipScopeLoop stack2 rest ≠ SkipRes.oob := by
                apply ih; simp at hlen; omega
              simp [skipScopeLoop, hop, hcl, hmis, hz] at h
              exact this h
      · by_cases hz : stack.length = 0
        · simp [skipScopeLoop, hop, hcl, hz] at h
        · have : skipScopeLoop stack rest ≠ SkipRes.oob := by
            apply ih; omega
          simp [skipScopeLoop, hop, hcl, hz] at h
          exact this h

/-- With the stack in bounds, the bounded loop agrees with the
specification-side scan. -/
theorem skipScopeLoop_eq_spec (s : List Char) :
    ∀ stack : List Char, stack.length ≤ 255 →
      skipScopeLoop stack s = scopeSpecLoop stack s := by
  induction s with
  | nil => intro stack _; rfl
  | cons c rest ih =>
    intro stack hlen
    by_cases hop : isOpenCh c
    · have hnot : ¬ 256 ≤ stack.length := by omega
      by_cases hfull : 256 ≤ stack.length + 1
      · simp [skipScopeLoop, scopeSpecLoop, hop, hnot, hfull]
      · have := ih (c :: stack) (by simp; omega)
        simp [skipScopeLoop, scopeSpecLoop, hop, hnot, hfull, this]
    · by_cases hcl : isCloseCh c
      · match stack with
        | [] => simp [skipScopeLoop, scopeSpecLoop, hop, hcl]
        | top :: stack2 =>
          by_cases hmis : ((c == '>' && !(top == '<')) || (c == ')' && !(top == '('))) = true
          · simp [skipScopeLoop, scopeSpecLoop, hop, hcl, hmis]
          · by_cases hz : stack2.length = 0
            · simp [skipScopeLoop, scopeSpecLoop, hop, hcl, hmis, hz]
            · have := ih stack2 (by simp at hlen; omega)
              simp [skipScopeLoop, scopeSpecLoop, hop, hcl, hmis, hz, this]
      · by_cases hz : stack.length = 0
        · simp [skipScopeLoop, scopeSpecLoop, hop, hcl, hz]
        · have := ih stack hlen
          simp [skipScopeLoop, scopeSpecLoop, hop, hcl, hz, this]

/-- A singleton list admits no split into two nonempty parts. -/
theorem singleton_no_proper_split (c : Char) (P : List Char → Prop) :
    ∀ p q : List Char, [c] = p ++ q → p ≠ [] → q ≠ [] → P p := by
  intro p q hpq hp hq
  match p with
  | [] => exact absurd rfl hp
  | c1 :: p2 =>
    simp only [List.cons_append, List.cons.injEq] at hpq
    have h2 := hpq.2
    have hq2 : p2 = [] ∧ q = [] := List.append_eq_nil.mp h2.symm
    exact absurd hq2.2 hq

/-- Splitting a cons along a nonempty first part splits the tail. -/
theorem cons_split (c : Char) (mid p2 q : List Char) (c1 : Char)
    (hpq : c :: mid = (c1 :: p2) ++ q) : c1 = c ∧ mid = p2 ++ q := by
  simp only [List.cons_append, List.cons.injEq] at hpq
  exact ⟨hpq.1.symm, hpq.2⟩

/-- Characterization of the successful returns of the loop: the pointer
returned by a break is just past the shortest nonempty prefix that
brings the depth back to zero relative to the scopes already open, and
the end of the string is returned when the depth never comes back to
zero. -/
theorem skipScopeLoop_ok_characterization (s : List Char) :
    ∀ (stack : List Char) (r : List Char), skipScopeLoop stack s = SkipRes.ok r →
      r = [] ∨ ∃ mid, mid ≠ [] ∧ s = mid ++ r ∧
        (stack.length : Int) + netDepth mid = 0 ∧
        (∀ p q, mid = p ++ q → p ≠ [] → q ≠ [] → 0 < (stack.length : Int) + netDepth p) := by
  induction s with
  | nil =>
    intro stack r h
    simp [skipScopeLoop] at h
    exact Or.inl h
  | cons c rest ih =>
    intro stack r h
    cases hop : isOpenCh c with
    | true =>
      by_cases h255 : 256 ≤ stack.length
      · simp [skipScopeLoop, hop, h255] at h
      · by_cases h256 : 256 ≤ stack.length + 1
        · simp [skipScopeLoop, hop, h255, h256] at h
        · have h2 : skipScopeLoop (c :: stack) rest = SkipRes.ok r := by
            simpa [skipScopeLoop, hop, h255, h256] using h
          have hd1 : depthDelta c = 1 := by simp [depthDelta, hop]
          rcases ih (c :: stack) r h2 with hr | ⟨mid, hmne, heq, hdep, hpre⟩
          · exact Or.inl hr
          · refine Or.inr ⟨c :: mid, by simp, by simp [heq], ?_, ?_⟩
            · simp only [netDepth, hd1, List.length_cons] at hdep ⊢
              push_cast at hdep ⊢
              omega
            · intro p q hpq hp hq
              match p with
              | [] => exact absurd rfl hp
              | c1 :: p2 =>
                obtain ⟨hc1, hpq2⟩ := cons_split c mid p2 q c1 hpq
                subst hc1
                by_cases hp2 : p2 = []
                · subst hp2
                  simp only [netDepth, hd1]
                  omega
                · have hplt := hpre p2 q hpq2 hp2 hq
                  simp only [netDepth, hd1, List.length_cons] at hplt ⊢
                  push_cast at hplt ⊢
                  omega
    | false =>
      cases hcl : isCloseCh c with
      | true =>
        have hd1 : depthDelta c = -1 := by simp [depthDelta, hop, hcl]
        match stack with
        | [] => simp [skipScopeLoop, hop, hcl] at h
        | top :: stack2 =>
          cases hmis : ((c == '>' && !(top == '<')) || (c == ')' && !(top == '('))) with
          | true => simp [skipScopeLoop, hop, hcl, hmis] at h
          | false =>
            by_cases hz : stack2.length = 0
            · have hr : rest = r := by
                simpa [skipScopeLoop, hop, hcl, hmis, hz] using h
              refine Or.inr ⟨[c], by simp, by simp [hr], ?_, ?_⟩
              · simp only [netDepth, hd1, List.length_cons]
                push_cast
                omega
              · exact singleton_no_proper_split c _
            · have h2 : skipScopeLoop stack2 rest = SkipRes.ok r := by
                simpa [skipScopeLoop, hop, hcl, hmis, hz] using h
              rcases ih stack2 r h2 with hr | ⟨mid, hmne, heq, hdep, hpre⟩
              · exact Or.inl hr
              · refine Or.inr ⟨c :: mid, by simp, by simp [heq], ?_, ?_⟩
                · simp only [netDepth, hd1, List.length_cons] at hdep ⊢
                  push_cast at hdep ⊢
                  omega
                · intro p q hpq hp hq
                  match p with
                  | [] => exact absurd rfl hp
                  | c1 :: p2 =>
                    obtain ⟨hc1, hpq2⟩ := cons_split c mid p2 q c1 hpq
                    subst hc1
                    by_cases hp2 : p2 = []
                    · subst hp2
                      simp only [netDepth, hd1, List.length_cons]
                      push_cast
                      omega
                    · have hplt := hpre p2 q hpq2 hp2 hq
                      simp only [netDepth, hd1, List.length_cons] at hplt ⊢
                      push_cast at hplt ⊢
                      omega
      | false =>
        have hd1 : depthDelta c = 0 := by simp [depthDelta, hop, hcl]
        by_cases hz : stack.length = 0
        · have hr : rest = r := by
            simpa [skipScopeLoop, hop, hcl, hz] using h
          refine Or.inr ⟨[c], by simp, by simp [hr], ?_, ?_⟩
          · simp only [netDepth, hd1]
            omega
          · exact singleton_no_proper_split c _
        · have h2 : skipScopeLoop stack rest = SkipRes.ok r := by
            simpa [skipScopeLoop, hop, hcl, hz] using h
          rcases ih stack r h2 with hr | ⟨mid, hmne, heq, hdep, hpre⟩
          · exact Or.inl hr
          · refine Or.inr ⟨c :: mid, by simp, by simp [heq], ?_, ?_⟩
            · simp only [netDepth, hd1] at hdep ⊢
              omega
            · intro p q hpq hp hq
              match p with
              | [] => exact absurd rfl hp
              | c1 :: p2 =>
                obtain ⟨hc1, hpq2⟩ := cons_split c mid p2 q c1 hpq
                subst hc1
                by_cases hp2 : p2 = []
                · subst hp2
                  simp only [netDepth, hd1]
                  omega
                · have hplt := hpre p2 q hpq2 hp2 hq
                  simp only [netDepth, hd1] at hplt ⊢
                  omega

/-- Result of `parse_c_identifier`: the position after the identifier
together with the contents written to the identifier buffer and, when a
parameter buffer was supplied, to that buffer; the NULL return after a
reported error; or undefined behavior (the function copies from a
NULL-derived length when `skip_scope` fails, without checking). -/
inductive IdentRes where
  | ok (rest buff : List Char) (params : Option (List Char))
  | err
  | ub
  deriving DecidableEq, Repr

/-- A character on which the copy loop of `parse_c_identifier` stops
(c_utils.c line 133): NUL is handled separately by the list end. -/
def isStopC (c : Char) : Bool :=
  isSpaceC c || c == ';' || c == ',' || c == ')' || c == '>' || c == cbr || c == '*'

/-- Copy loop of `parse_c_identifier` (c_utils.c lines 133-153).  `buff`
accumulates the characters written through `bptr`; `params` is `none`
when the C caller passed a NULL parameter buffer.  On a `(` or `<` the
code runs `skip_scope` and copies the consumed span into the parameter
buffer with `ecs_os_strncpy`, overwriting any earlier contents; it does
not check `skip_scope` for NULL, so that path is undefined behavior.
The fuel only bounds the recursion; the wrapper supplies enough for the
loop, which consumes at least one character per step. -/
def identLoop : Nat → List Char → List Char → Option (List Char) → IdentRes
  | 0, _, _, _ => IdentRes.ub
  | _ + 1, [], _, _ => IdentRes.err
  | fuel + 1, c :: rest, buff, pars =>
    if isStopC c then IdentRes.ok (c :: rest) buff pars
    else if isOpenCh c then
      match pars with
      | none => IdentRes.err
      | some _ =>
        match skip_scope (c :: rest) with
        | SkipRes.ok e =>
          identLoop fuel e buff (some ((c :: rest).take ((c :: rest).length - e.length)))
        | _ => IdentRes.ub
    else identLoop fuel rest (buff ++ [c]) pars

/-- `parse_c_identifier` (c_utils.c lines 107-165).  `hasParams` is
whether the caller supplied a parameter buffer; supplying one starts it
out empty (`params[0] = 0`). -/
def parse_c_identifier (s : List Char) (hasParams : Bool) : IdentRes :=
  let pars : Option (List Char) := if hasParams then some [] else none
  let s1 := flecs_parse_ws_eol s
  match s1 with
  | [] => IdentRes.err
  | c :: _ =>
    if !(isAlphaC c || c == '_') then IdentRes.err
    else identLoop (s1.length + 1) s1 [] pars

/-- Number of bytes `parse_c_identifier` wrote into the identifier
buffer: one byte per copied character plus the final NUL terminator, or
zero when the call did not reach the terminating store. -/
def buffBytes : IdentRes → Nat
  | IdentRes.ok _ buff _ => buff.length + 1
  | _ => 0

/-- Modelled from the spec: `flecs_parse_digit` is declared outside the
excerpt; per its use it accepts a leading digit or minus sign, copies
the sign and following digits into the token buffer and returns the
position after them, and returns NULL when the first character is
neither. -/
def flecs_parse_digit (s : List Char) : Option (List Char × List Char) :=
  match s with
  | [] => none
  | c :: rest =>
    if isDigitC c || c == '-' then
      some (rest.dropWhile isDigitC, c :: rest.takeWhile isDigitC)
    else none

/-- Numeric value of a decimal digit character. -/
def digitVal (c : Char) : Int := (c.toNat : Int) - 48

/-- Decimal accumulation over a digit list. -/
def decAcc : Int → List Char → Int
  | acc, [] => acc
  | acc, c :: rest => decAcc (acc * 10 + digitVal c) rest

/-- Modelled from the spec: `strtol` with base 0 on the token produced
by `flecs_parse_digit`, restricted to the decimal forms the parser
feeds it: an optional minus sign followed by decimal digits. -/
def strtolModel (tok : List Char) : Int :=
  match tok with
  | [] => 0
  | c :: rest => if c == '-' then - decAcc 0 rest else decAcc 0 (c :: rest)

/-- `parse_c_digit` (c_utils.c lines 88-105): skip whitespace, read the
digit token, convert it, and skip trailing whitespace. -/
def parse_c_digit (s : List Char) : Option (List Char × Int) :=
  match flecs_parse_digit (flecs_parse_ws_eol s) with
  | none => none
  | some (rest, tok) => some (flecs_parse_ws_eol rest, strtolModel tok)

/-- C `atoi`: skip whitespace, optional sign, then decimal digits;
conversion stops at the first non-digit and an empty digit run gives
zero. -/
def atoiModel (s : List Char) : Int :=
  match flecs_parse_ws_eol s with
  | [] => 0
  | c :: rest =>
    if c == '-' then - decAcc 0 (rest.takeWhile isDigitC)
    else if c == '+' then decAcc 0 (rest.takeWhile isDigitC)
    else decAcc 0 ((c :: rest).takeWhile isDigitC)

/-- Result of `flecs_meta_utils_open_scope`: the position inside the
scope, the NULL return at the clean end of the definition (with the
error flag left false), or the NULL return after a reported error (with
the error flag set true). -/
inductive ScopeRes where
  | ok (rest : List Char)
  | done
  | err
  deriving DecidableEq, Repr

/-- `flecs_meta_utils_open_scope` (c_utils.c lines 167-210).  The C code
compares the current pointer against the start of the description to
decide whether the opening brace is still expected; with suffixes this
is a length comparison after the whitespace skip. -/
def flecs_meta_utils_open_scope (desc rest : List Char) : ScopeRes :=
  let r1 := flecs_parse_ws_eol rest
  let r2opt : Option (List Char) :=
    if r1.length = desc.length then
      match r1 with
      | [] => none
      | c :: rest2 => if c = obr then some (flecs_parse_ws_eol rest2) else none
    else some r1
  match r2opt with
  | none => ScopeRes.err
  | some r2 =>
    match r2 with
    | [] => ScopeRes.err
    | c :: rest3 =>
      if c = cbr then
        if flecs_parse_ws_eol rest3 = [] then ScopeRes.done else ScopeRes.err
      else ScopeRes.ok r2

/-- Parsed enum or bitmask constant: the identifier and the explicitly
assigned value when an assignment was present (`is_value_set`). -/
structure ConstTok where
  name : List Char
  value : Option Int
  deriving DecidableEq, Repr

/-- Result of `flecs_meta_utils_parse_constant`: the position after the
constant with its token; the NULL return with the final value of the
error flag (set only by `flecs_meta_utils_open_scope`, the later error
paths leave it false); or undefined behavior (after `= `, a failed
`parse_c_digit` is dereferenced without a check). -/
inductive ConstRes where
  | ok (rest : List Char) (tok : ConstTok)
  | stop (error : Bool)
  | ub
  deriving DecidableEq, Repr

/-- `flecs_meta_utils_parse_constant` (c_utils.c lines 212-258). -/
def flecs_meta_utils_parse_constant (desc rest : List Char) : ConstRes :=
  match flecs_meta_utils_open_scope desc rest with
  | ScopeRes.err => ConstRes.stop true
  | ScopeRes.done => ConstRes.stop false
  | ScopeRes.ok p1 =>
    match parse_c_identifier p1 false with
    | IdentRes.err => ConstRes.stop false
    | IdentRes.ub => ConstRes.ub
    | IdentRes.ok p2 name _ =>
      match flecs_parse_ws_eol p2 with
      | [] => ConstRes.stop false
      | c :: rest4 =>
        if c = '=' then
          match parse_c_digit rest4 with
          | none => ConstRes.ub
          | some (p4, v) =>
            match p4 with
            | [] => ConstRes.stop false
            | d :: rest5 =>
              if d = ',' then ConstRes.ok rest5 ⟨name, some v⟩
              else if d = cbr then ConstRes.ok (d :: rest5) ⟨name, some v⟩
              else ConstRes.stop false
        else if c = ',' then ConstRes.ok rest4 ⟨name, none⟩
        else if c = cbr then ConstRes.ok (c :: rest4) ⟨name, none⟩
        else ConstRes.stop false

/-- Conversion of the int64 running value to the stored `ecs_i32_t`:
two's-complement wrap-around into the signed 32-bit range. -/
def toInt32 (v : Int) : Int := (v + 2 ^ 31) % 2 ^ 32 - 2 ^ 31

/-- Conversion of the int64 running value to the stored `ecs_u32_t`. -/
def toUInt32I (v : Int) : Int := v % 2 ^ 32

/-- Value stored by `ecs_set_pair_second` in
`flecs_meta_utils_parse_constants`: an `ecs_i32_t` cast for enums and an
`ecs_u32_t` cast for bitmasks (c_utils.c lines 785-791). -/
def castReg (isBitmask : Bool) (v : Int) : Int :=
  if isBitmask then toUInt32I v else toInt32 v

/-- Result of `flecs_meta_utils_parse_constants`: the returned code and
the sequence of constant values registered with the world, in order, or
undefined behavior propagated from a constant parse. -/
inductive CRes where
  | done (code : Int) (regs : List Int)
  | ub
  deriving DecidableEq, Repr

/-- Loop of `flecs_meta_utils_parse_constants` (c_utils.c lines
754-798).  The world-side effects of registration (entity creation, the
name-stripping memmoves, scope changes) only affect constant names, not
values, and are abstracted into the list of registered values.  The
fuel bounds the recursion; the wrapper supplies one unit per input
character plus one, enough because every parsed constant consumes at
least one character. -/
def constantsLoop (isBitmask : Bool) (desc : List Char) :
    Nat → List Char → Int → CRes
  | 0, _, _ => CRes.done 0 []
  | fuel + 1, rest, lastValue =>
    match flecs_meta_utils_parse_constant desc rest with
    | ConstRes.ub => CRes.ub
    | ConstRes.stop e => CRes.done (if e then -1 else 0) []
    | ConstRes.ok rest2 tok =>
      match tok.value with
      | some v =>
        match constantsLoop isBitmask desc fuel rest2 (v + 1) with
        | CRes.ub => CRes.ub
        | CRes.done code regs => CRes.done code (castReg isBitmask v :: regs)
      | none =>
        if isBitmask then CRes.done (-1) []
        else
          match constantsLoop isBitmask desc fuel rest2 (lastValue + 1) with
          | CRes.ub => CRes.ub
          | CRes.done code regs => CRes.done code (castReg isBitmask lastValue :: regs)

/-- `flecs_meta_utils_parse_constants` (c_utils.c lines 731-801), with
`last_value` starting at zero. -/
def flecs_meta_utils_parse_constants (isBitmask : Bool) (desc : List Char) : CRes :=
  constantsLoop isBitmask desc (desc.length + 1) desc 0

/-- The sequence of constant tokens the parser yields from a
description, stopping at the first NULL return, with each token reduced
to whether it carried an explicit value assignment. -/
def constantTokensLoop (desc : List Char) : Nat → List Char → List (Option Int)
  | 0, _ => []
  | fuel + 1, rest =>
    match flecs_meta_utils_parse_constant desc rest with
    | ConstRes.ok rest2 tok => tok.value :: constantTokensLoop desc fuel rest2
    | _ => []

/-- Constant tokens of a description. -/
def constantTokens (desc : List Char) : List (Option Int) :=
  constantTokensLoop desc (desc.length + 1) desc

/-- Follows the claim words (specification side of the refinement): the
running 64-bit value of each constant is its explicitly assigned value,
or one greater than the previous running value, the first defaulted
constant being zero; the registered value is that running value reduced
to a signed 32-bit integer. -/
def enumSpecValuesFrom : Int → List (Option Int) → List Int
  | _, [] => []
  | prev, t :: ts =>
    match t with
    | some v => toInt32 v :: enumSpecValuesFrom v ts
    | none => toInt32 (prev + 1) :: enumSpecValuesFrom (prev + 1) ts

/-- Specification-side valuation of an enum constant token list. -/
def enumSpecValues (ts : List (Option Int)) : List Int := enumSpecValuesFrom (-1) ts

/-- Return code of a constants parse, absent on undefined behavior. -/
def cresCode : CRes → Option Int
  | CRes.done code _ => some code
  | CRes.ub => none

/-- The registered enum values produced by the parse loop are exactly
the specification valuation of the token stream, whatever the return
code and wherever the loop stops. -/
theorem constantsLoop_enum_spec (desc : List Char) :
    ∀ (fuel : Nat) (rest : List Char) (lastValue code : Int) (regs : List Int),
      constantsLoop false desc fuel rest lastValue = CRes.done code regs →
      regs = enumSpecValuesFrom (lastValue - 1) (constantTokensLoop desc fuel rest) := by
  intro fuel
  induction fuel with
  | zero =>
    intro rest lv code regs h
    simp [constantsLoop] at h
    simp [constantTokensLoop, enumSpecValuesFrom, h.2]
  | succ fuel ih =>
    intro rest lv code regs h
    cases hp : flecs_meta_utils_parse_constant desc rest with
    | ub => simp [constantsLoop, hp] at h
    | stop e =>
      simp [constantsLoop, hp] at h
      simp [constantTokensLoop, hp, enumSpecValuesFrom, h.2]
    | ok rest2 tok =>
      cases hv : tok.value with
      | some v =>
        cases hin : constantsLoop false desc fuel rest2 (v + 1) with
        | ub => simp [constantsLoop, hp, hv, hin] at h
        | done code2 regs2 =>
          have hspec := ih rest2 (v + 1) code2 regs2 hin
          simp [constantsLoop, hp, hv, hin] at h
          have hv1 : (v : Int) + 1 - 1 = v := by ring
          rw [hv1] at hspec
          rw [← h.2, hspec]
          simp [constantTokensLoop, hp, hv, enumSpecValuesFrom, castReg]
      | none =>
        cases hin : constantsLoop false desc fuel rest2 (lv + 1) with
        | ub => simp [constantsLoop, hp, hv, hin] at h
        | done code2 regs2 =>
          have hspec := ih rest2 (lv + 1) code2 regs2 hin
          simp [constantsLoop, hp, hv, hin] at h
          have hv1 : lv + 1 - 1 = lv := by ring
          rw [hv1] at hspec
          rw [← h.2, hspec]
          simp [constantTokensLoop, hp, hv, enumSpecValuesFrom, castReg]

/-- In bitmask mode the loop returns -1 whenever some constant in the
token stream lacks an explicit value assignment. -/
theorem constantsLoop_bitmask_fails (desc : List Char) :
    ∀ (fuel : Nat) (rest : List Char) (lastValue : Int),
      none ∈ constantTokensLoop desc fuel rest →
      cresCode (constantsLoop true desc fuel rest lastValue) = some (-1) := by
  intro fuel
  induction fuel with
  | zero =>
    intro rest lv hmem
    simp [constantTokensLoop] at hmem
  | succ fuel ih =>
    intro rest lv hmem
    cases hp : flecs_meta_utils_parse_constant desc rest with
    | ub => simp [constantTokensLoop, hp] at hmem
    | stop e => simp [constantTokensLoop, hp] at hmem
    | ok rest2 tok =>
      simp [constantTokensLoop, hp] at hmem
      cases hv : tok.value with
      | none => simp [constantsLoop, hp, hv, cresCode]
      | some v =>
        have hmem2 : none ∈ constantTokensLoop desc fuel rest2 := by
          rcases hmem with hmem | hmem
          · rw [hv] at hmem; exact absurd hmem (by simp)
          · exact hmem
        have hcode := ih rest2 (v + 1) hmem2
        cases hin : constantsLoop true desc fuel rest2 (v + 1) with
        | ub => rw [hin] at hcode; simp [cresCode] at hcode
        | done code2 regs2 =>
          rw [hin] at hcode
          simp [cresCode] at hcode
          simp [constantsLoop, hp, hv, hin, cresCode, hcode]

/-- C9 (amended): for every input string, `skip_scope` keeps its
256-entry bracket stack within bounds (no out-of-bounds access is ever
performed), and it returns NULL exactly when the unbounded
specification scan does, that is when the nesting depth of opened
scopes reaches 256 or a closer fails to match the most recently opened
unclosed bracket; otherwise it returns either the end of the string
(when the input is empty or the depth never returns to zero, an
unterminated scope included), or the position just past the shortest
nonempty prefix whose bracket depth returns to zero - past the closer
balancing the first opener when the string starts with one, and just
past the first character when it is not a bracket. -/
theorem c9_skip_scope_characterization (s : List Char) :
    skip_scope s ≠ SkipRes.oob ∧
    skip_scope s = scope_spec s ∧
    (∀ r, skip_scope s = SkipRes.ok r →
      r = [] ∨ ∃ mid, mid ≠ [] ∧ s = mid ++ r ∧ netDepth mid = 0 ∧
        (∀ p q, mid = p ++ q → p ≠ [] → q ≠ [] → 0 < netDepth p)) := by
  refine ⟨skipScopeLoop_no_oob s [] (by simp),
    skipScopeLoop_eq_spec s [] (by simp), ?_⟩
  intro r h
  have hch := skipScopeLoop_ok_characterization s [] r h
  simpa using hch

/-- C9 witness: the characterization applied to a concrete balanced
input, discharging the hypothesis by evaluation. -/
theorem c9_skip_scope_characterization_witness :
    cs "b" = ([] : List Char) ∨ ∃ mid, mid ≠ [] ∧ cs "(x)b" = mid ++ cs "b" ∧
      netDepth mid = 0 ∧
      (∀ p q, mid = p ++ q → p ≠ [] → q ≠ [] → 0 < netDepth p) :=
  (c9_skip_scope_characterization (cs "(x)b")).2.2 (cs "b") (by decide)

/-- C9 counterexample: on the input "ab" no scope is ever opened yet
`skip_scope` returns the position after the first character, not the
end of the string as the claim states; and on the unterminated "(("
it returns the end of the string without reporting an error, a case the
claim assigns no successful return at all. -/
theorem c9_counterexample :
    skip_scope (cs "ab") = SkipRes.ok (cs "b") ∧
    cs "b" ≠ ([] : List Char) ∧
    skip_scope (cs "((") = SkipRes.ok [] := by
  exact ⟨by decide, by decide, by decide⟩

/-- C10 (amended): for every enum description, the registered constant
values are the specification valuation of the parsed token stream - the
explicitly assigned value, or one greater than the previous running
64-bit value with a first defaulted constant valued zero, each reduced
to the signed 32-bit range by the `ecs_i32_t` store; and for a bitmask
description, a parsed constant without an explicit value assignment
makes `flecs_meta_utils_parse_constants` return -1. -/
theorem c10_enum_valuation (desc : List Char) :
    (∀ code regs, flecs_meta_utils_parse_constants false desc = CRes.done code regs →
      regs = enumSpecValues (constantTokens desc)) ∧
    (none ∈ constantTokens desc →
      cresCode (flecs_meta_utils_parse_constants true desc) = some (-1)) := by
  constructor
  · intro code regs h
    have hs := constantsLoop_enum_spec desc (desc.length + 1) desc 0 code regs h
    have h0 : (0 : Int) - 1 = -1 := by ring
    rw [h0] at hs
    exact hs
  · intro hmem
    exact constantsLoop_bitmask_fails desc (desc.length + 1) desc 0 hmem

/-- C10 witness: the enum equation evaluated on a two-constant
description and the bitmask failure on a constant lacking an explicit
value, hypotheses discharged by evaluation. -/
theorem c10_enum_valuation_witness :
    [(0 : Int), 1] = enumSpecValues (constantTokens (obr :: cs "A, B" ++ [cbr])) ∧
    cresCode (flecs_meta_utils_parse_constants true (obr :: cs "A" ++ [cbr])) =
      some (-1) :=
  ⟨(c10_enum_valuation (obr :: cs "A, B" ++ [cbr])).1 0 [0, 1] (by decide),
   (c10_enum_valuation (obr :: cs "A" ++ [cbr])).2 (by decide)⟩

/-- C10 counterexample: a constant declared as `A = 2147483648` is
registered with value -2147483648, not 2147483648 as the claim states,
because the running int64 value is stored through an `ecs_i32_t` cast;
and after `A = 2147483647` the following defaulted constant `B` is
registered with -2147483648, which is not one greater than the value
registered for `A`. -/
theorem c10_counterexample :
    flecs_meta_utils_parse_constants false (obr :: cs "A = 2147483648" ++ [cbr]) =
      CRes.done 0 [-2147483648] ∧
    (-2147483648 : Int) ≠ 2147483648 ∧
    flecs_meta_utils_parse_constants false (obr :: cs "A = 2147483647, B" ++ [cbr]) =
      CRes.done 0 [2147483647, -2147483648] ∧
    (-2147483648 : Int) ≠ 2147483647 + 1 := by
  exact ⟨by decide, by decide, by decide, by decide⟩

/-- Parsed type: identifier, parameter-buffer contents, and the const
and pointer flags. -/
structure TypeTok where
  type : List Char
  params : List Char
  is_const : Bool
  is_ptr : Bool
  deriving DecidableEq, Repr

/-- Result of `flecs_meta_utils_parse_type`: the position after the
type with its token, the NULL return after a reported error, or
undefined behavior (a failed identifier parse after `const` flows
unchecked into `flecs_parse_ws_eol`). -/
inductive TypeRes where
  | ok (rest : List Char) (tok : TypeTok)
  | err
  | ub
  deriving DecidableEq, Repr

/-- Tail of `flecs_meta_utils_parse_type` (c_utils.c lines 291-299):
skip whitespace and consume a trailing `*` into the pointer flag. -/
def typeTail (rest : List Char) (tok : TypeTok) : TypeRes :=
  match flecs_parse_ws_eol rest with
  | [] => TypeRes.ok [] tok
  | c :: r2 =>
    if c = '*' then TypeRes.ok r2 { tok with is_ptr := true }
    else TypeRes.ok (c :: r2) tok

/-- `flecs_meta_utils_parse_type` (c_utils.c lines 260-302).  On
`ECS_PRIVATE` the code skips to the end of the string and returns; on
`const` it re-parses the identifier one character further without
checking that parse for NULL, so its failure is undefined behavior. -/
def flecs_meta_utils_parse_type (s : List Char) : TypeRes :=
  match parse_c_identifier (flecs_parse_ws_eol s) true with
  | IdentRes.err => TypeRes.err
  | IdentRes.ub => TypeRes.ub
  | IdentRes.ok p1 ty pars =>
    if ty = cs "ECS_PRIVATE" then TypeRes.ok [] ⟨ty, pars.getD [], false, false⟩
    else if ty = cs "const" then
      match parse_c_identifier (p1.drop 1) true with
      | IdentRes.err => TypeRes.ub
      | IdentRes.ub => TypeRes.ub
      | IdentRes.ok p2 ty2 pars2 => typeTail p2 ⟨ty2, pars2.getD [], true, false⟩
    else typeTail p1 ⟨ty, pars.getD [], false, false⟩

/-- Parsed struct member: type, name, array count and the partial
flag the code sets when the type parse fails. -/
structure MemberTok where
  type : TypeTok
  name : List Char
  count : Int
  is_partial : Bool
  deriving DecidableEq, Repr

/-- Result of `flecs_meta_utils_parse_member`: the position after the
member with its token, the NULL return carrying the final value of the
error flag (set only by `flecs_meta_utils_open_scope`; every later
failure path leaves it false), or propagated undefined behavior. -/
inductive MemberRes where
  | ok (rest : List Char) (tok : MemberTok)
  | stop (error : Bool)
  | ub
  deriving DecidableEq, Repr

/-- Index of the first occurrence of a character in a list, as C
`strchr` computes it over a NUL-terminated buffer. -/
def findCharIdx (c : Char) : List Char → Option Nat
  | [] => none
  | d :: rest => if d = c then some 0 else (findCharIdx c rest).map (· + 1)

/-- Final `;` check of `flecs_meta_utils_parse_member` (c_utils.c lines
373-379). -/
def memberFinish (p : List Char) (tok : MemberTok) : MemberRes :=
  match p with
  | c :: rest => if c = ';' then MemberRes.ok rest tok else MemberRes.stop false
  | [] => MemberRes.stop false

/-- `flecs_meta_utils_parse_member` (c_utils.c lines 304-382).  The `[`
of an array suffix is not a stop character, so it and the size normally
land inside the name buffer and are split off again by the `strchr`
search; a `[` separated by whitespace is instead found in the input.
The `array_end - array_start == 0` error branch is kept although the
searched position always holds the opening bracket. -/
def flecs_meta_utils_parse_member (desc rest : List Char) : MemberRes :=
  match flecs_meta_utils_open_scope desc rest with
  | ScopeRes.err => MemberRes.stop true
  | ScopeRes.done => MemberRes.stop false
  | ScopeRes.ok p1 =>
    match flecs_meta_utils_parse_type p1 with
    | TypeRes.err => MemberRes.stop false
    | TypeRes.ub => MemberRes.ub
    | TypeRes.ok p2 tyTok =>
      match p2 with
      | [] => MemberRes.ok [] ⟨tyTok, [], 1, false⟩
      | _ :: _ =>
        match parse_c_identifier p2 false with
        | IdentRes.err => MemberRes.stop false
        | IdentRes.ub => MemberRes.ub
        | IdentRes.ok p3 name0 _ =>
          let p4 := flecs_parse_ws_eol p3
          match findCharIdx '[' name0 with
          | some j =>
            match findCharIdx ']' (name0.drop j) with
            | none => MemberRes.stop false
            | some k =>
              if k = 0 then MemberRes.stop false
              else memberFinish p4 ⟨tyTok, name0.take j, atoiModel (name0.drop (j + 1)), false⟩
          | none =>
            match p4 with
            | [] => memberFinish [] ⟨tyTok, name0, 1, false⟩
            | c :: rest5 =>
              if c = '[' then
                match findCharIdx ']' p4 with
                | none => MemberRes.stop false
                | some k =>
                  if k = 0 then MemberRes.stop false
                  else memberFinish (p4.drop (k + 1)) ⟨tyTok, name0, atoiModel rest5, false⟩
              else memberFinish p4 ⟨tyTok, name0, 1, false⟩

/-- Parsed collection parameters.  The C struct leaves `key_type` and
`count` uninitialized when the corresponding flag is false; the model
uses empty and zero defaults, which the callers never read without the
flag. -/
structure ParamsTok where
  key_type : TypeTok
  type : TypeTok
  count : Int
  is_key_value : Bool
  is_fixed_size : Bool
  deriving DecidableEq, Repr

/-- Result of `flecs_meta_utils_parse_desc`: the parsed parameters, the
-1 return after a reported error, or undefined behavior (the second
`flecs_meta_utils_parse_type` call is not checked for NULL). -/
inductive DescRes where
  | ok (tok : ParamsTok)
  | err
  | ub
  deriving DecidableEq, Repr

/-- The all-empty type token. -/
def emptyTypeTok : TypeTok := ⟨[], [], false, false⟩

/-- Final closer check of `flecs_meta_utils_parse_desc` (c_utils.c
lines 434-438). -/
def descFinish (p : List Char) (tok : ParamsTok) : DescRes :=
  match p with
  | [] => DescRes.err
  | c :: _ => if c = ')' ∨ c = '>' then DescRes.ok tok else DescRes.err

/-- `flecs_meta_utils_parse_desc` (c_utils.c lines 384-443). -/
def flecs_meta_utils_parse_desc (s : List Char) : DescRes :=
  match flecs_parse_ws_eol s with
  | [] => DescRes.err
  | c :: rest =>
    if ¬ (c = '(' ∨ c = '<') then DescRes.err
    else
      match flecs_meta_utils_parse_type rest with
      | TypeRes.err => DescRes.err
      | TypeRes.ub => DescRes.ub
      | TypeRes.ok p1 ty1 =>
        match flecs_parse_ws_eol p1 with
        | [] => DescRes.err
        | c2 :: rest2 =>
          if c2 = ',' then
            let p3 := flecs_parse_ws_eol rest2
            if (match p3 with | d :: _ => isDigitC d | [] => false) then
              match parse_c_digit p3 with
              | none => DescRes.err
              | some (p4, v) => descFinish p4 ⟨emptyTypeTok, ty1, v, false, true⟩
            else
              match flecs_meta_utils_parse_type p3 with
              | TypeRes.err => DescRes.ub
              | TypeRes.ub => DescRes.ub
              | TypeRes.ok p4 ty2 =>
                descFinish (flecs_parse_ws_eol p4) ⟨ty1, ty2, 0, true, false⟩
          else descFinish (c2 :: rest2) ⟨emptyTypeTok, ty1, 0, false, false⟩

/-- Environment for component resolution: the world symbol table as a
function from symbol to entity id (zero when unknown, as
`ecs_lookup_symbol` returns NULL-like 0), and the ids of the builtin
primitive types the dispatch in `flecs_meta_utils_lookup` hands out. -/
structure MetaSymEnv where
  symbols : List Char → Nat
  idByte : Nat
  idChar : Nat
  idBool : Nat
  idI8 : Nat
  idI16 : Nat
  idI32 : Nat
  idI64 : Nat
  idU8 : Nat
  idU16 : Nat
  idU32 : Nat
  idU64 : Nat
  idF32 : Nat
  idF64 : Nat
  idEntity : Nat
  idId : Nat
  idString : Nat

/-- Result of a lookup: the resolved entity id (zero is the error
sentinel the code returns after reporting) together with the world
state, or undefined behavior.  The world state is reduced to the
fresh-entity counter; `ecs_set` side effects carry no feedback into
parsing and are omitted. -/
inductive LookupRes where
  | ok (ty : Nat) (st : Nat)
  | ub
  deriving DecidableEq, Repr

/-- `ecs_new`: a fresh nonzero entity id and the advanced counter. -/
def ecsNew (st : Nat) : Nat × Nat := (st + 1, st + 1)

/-- `flecs_meta_utils_lookup_array` (c_utils.c lines 453-497).  Note
that an unknown element type only reports an error and falls through:
the function still creates and returns a fresh entity.  `ecs_check` is
modelled as the soft check that jumps to the error label. -/
def flecs_meta_utils_lookup_array (env : MetaSymEnv) (e : Nat)
    (paramsDecl : List Char) (st : Nat) : LookupRes :=
  match flecs_meta_utils_parse_desc paramsDecl with
  | DescRes.ub => LookupRes.ub
  | DescRes.err => LookupRes.ok 0 st
  | DescRes.ok params =>
    if ¬ params.is_fixed_size then LookupRes.ok 0 st
    else if params.count = 0 then LookupRes.ok 0 st
    else
      let _element := env.symbols params.type.type
      let n := if e = 0 then ecsNew st else (e, st)
      if params.count ≤ 2147483647 then LookupRes.ok n.1 n.2
      else LookupRes.ok 0 n.2

/-- Body of `flecs_meta_utils_lookup_vector` (c_utils.c lines 499-534)
over an abstract recursive lookup for the element type.  The element
lookup result is not checked: a fresh entity is returned even when the
element type resolved to the zero sentinel. -/
def lookupVectorWith (rec1 : TypeTok → Nat → LookupRes) (e : Nat)
    (paramsDecl : List Char) (st : Nat) : LookupRes :=
  match flecs_meta_utils_parse_desc paramsDecl with
  | DescRes.ub => LookupRes.ub
  | DescRes.err => LookupRes.ok 0 st
  | DescRes.ok params =>
    if params.is_key_value then LookupRes.ok 0 st
    else
      match rec1 params.type st with
      | LookupRes.ub => LookupRes.ub
      | LookupRes.ok _elemTy st2 =>
        let n := if e = 0 then ecsNew st2 else (e, st2)
        LookupRes.ok n.1 n.2

/-- Body of `flecs_meta_utils_lookup_bitmask` (c_utils.c lines 536-581)
over an abstract recursive lookup; the debug-only `EcsType` kind check
is compiled out in release builds and not modelled. -/
def lookupBitmaskWith (rec1 : TypeTok → Nat → LookupRes)
    (paramsDecl : List Char) (st : Nat) : LookupRes :=
  match flecs_meta_utils_parse_desc paramsDecl with
  | DescRes.ub => LookupRes.ub
  | DescRes.err => LookupRes.ok 0 st
  | DescRes.ok params =>
    if params.is_key_value then LookupRes.ok 0 st
    else if params.is_fixed_size then LookupRes.ok 0 st
    else
      match rec1 params.type st with
      | LookupRes.ub => LookupRes.ub
      | LookupRes.ok bt st2 =>
        if bt = 0 then LookupRes.ok 0 st2 else LookupRes.ok bt st2

/-- `flecs_meta_utils_lookup` (c_utils.c lines 583-687).  The fuel
bounds the recursion through vector and bitmask element types; in the
pointer branch the later `char*` comparison is dead code because the
`is_ptr` test before it always takes the uptr name, as in the source.
With a count other than one the code inserts a fresh array entity, so
the zero sentinel of a failed base lookup is replaced by a nonzero id,
as in the source. -/
def flecs_meta_utils_lookup (env : MetaSymEnv) :
    Nat → TypeTok → Int → Nat → LookupRes
  | 0, _, _, _ => LookupRes.ub
  | fuel + 1, tok, count, st =>
    let dispatched : LookupRes :=
      if ¬ tok.is_ptr then
        if tok.type = cs "ecs_array" then
          flecs_meta_utils_lookup_array env 0 tok.params st
        else if tok.type = cs "ecs_vector" ∨ tok.type = cs "flecs::vector" then
          lookupVectorWith (fun t s => flecs_meta_utils_lookup env fuel t 1 s) 0 tok.params st
        else if tok.type = cs "flecs::bitmask" then
          lookupBitmaskWith (fun t s => flecs_meta_utils_lookup env fuel t 1 s) tok.params st
        else if tok.type = cs "flecs::byte" then LookupRes.ok env.idByte st
        else if tok.type = cs "char" then LookupRes.ok env.idChar st
        else if tok.type = cs "bool" ∨ tok.type = cs "_Bool" then LookupRes.ok env.idBool st
        else if tok.type = cs "int8_t" then LookupRes.ok env.idI8 st
        else if tok.type = cs "int16_t" then LookupRes.ok env.idI16 st
        else if tok.type = cs "int32_t" then LookupRes.ok env.idI32 st
        else if tok.type = cs "int64_t" then LookupRes.ok env.idI64 st
        else if tok.type = cs "uint8_t" then LookupRes.ok env.idU8 st
        else if tok.type = cs "uint16_t" then LookupRes.ok env.idU16 st
        else if tok.type = cs "uint32_t" then LookupRes.ok env.idU32 st
        else if tok.type = cs "uint64_t" then LookupRes.ok env.idU64 st
        else if tok.type = cs "float" then LookupRes.ok env.idF32 st
        else if tok.type = cs "double" then LookupRes.ok env.idF64 st
        else if tok.type = cs "ecs_entity_t" then LookupRes.ok env.idEntity st
        else if tok.type = cs "ecs_id_t" then LookupRes.ok env.idId st
        else if tok.type = cs "char*" then LookupRes.ok env.idString st
        else LookupRes.ok (env.symbols tok.type) st
      else
        let tn := if tok.type = cs "char" then cs "flecs.meta.string" else cs "flecs.meta.uptr"
        LookupRes.ok (env.symbols tn) st
    match dispatched with
    | LookupRes.ub => LookupRes.ub
    | LookupRes.ok ty st2 =>
      if count ≠ 1 then
        if ¬ (count ≤ 2147483647) then LookupRes.ok 0 st2
        else
          let n := ecsNew st2
          if n.1 = 0 then LookupRes.ok 0 n.2 else LookupRes.ok n.1 n.2
      else
        if ty = 0 then LookupRes.ok 0 st2 else LookupRes.ok ty st2

/-- `flecs_meta_utils_lookup_vector` at the standalone entry. -/
def flecs_meta_utils_lookup_vector (env : MetaSymEnv) (fuel : Nat) (e : Nat)
    (paramsDecl : List Char) (st : Nat) : LookupRes :=
  lookupVectorWith (fun t s => flecs_meta_utils_lookup env fuel t 1 s) e paramsDecl st

/-- `flecs_meta_utils_lookup_bitmask` at the standalone entry. -/
def flecs_meta_utils_lookup_bitmask (env : MetaSymEnv) (fuel : Nat)
    (paramsDecl : List Char) (st : Nat) : LookupRes :=
  lookupBitmaskWith (fun t s => flecs_meta_utils_lookup env fuel t 1 s) paramsDecl st

/-- Result of a parse entry returning an int, or undefined behavior. -/
inductive IntRes where
  | ret (code : Int)
  | ub
  deriving DecidableEq, Repr

/-- Loop of `flecs_meta_utils_parse_struct` (c_utils.c lines 689-729).
The member entity creation is modelled by advancing the fresh-entity
counter; the `EcsMember` set carries no feedback into parsing.  When
`flecs_meta_utils_parse_member` returns NULL the loop exits and the
function returns the error flag, which the later failure paths of the
member parse never set - only `flecs_meta_utils_open_scope` does. -/
def parseStructLoop (env : MetaSymEnv) (desc : List Char) :
    Nat → List Char → Nat → IntRes
  | 0, _, _ => IntRes.ret 0
  | fuel + 1, rest, st =>
    match flecs_meta_utils_parse_member desc rest with
    | MemberRes.ub => IntRes.ub
    | MemberRes.stop e => IntRes.ret (if e then -1 else 0)
    | MemberRes.ok rest2 tok =>
      match rest2 with
      | [] => IntRes.ret 0
      | _ :: _ =>
        let m := ecsNew st
        match flecs_meta_utils_lookup env (desc.length + 1) tok.type 1 m.2 with
        | LookupRes.ub => IntRes.ub
        | LookupRes.ok ty st2 =>
          if ty = 0 then IntRes.ret (-1)
          else parseStructLoop env desc fuel rest2 st2

/-- `flecs_meta_utils_parse_struct` (c_utils.c lines 689-729). -/
def flecs_meta_utils_parse_struct (env : MetaSymEnv) (desc : List Char)
    (st : Nat) : IntRes :=
  parseStructLoop env desc (desc.length + 1) desc st

/-- `ecs_type_kind_t` values `ecs_meta_from_desc` dispatches on. -/
inductive TypeKind where
  | EcsPrimitiveType
  | EcsBitmaskType
  | EcsEnumType
  | EcsStructType
  | EcsArrayType
  | EcsVectorType
  | EcsOpaqueType
  deriving DecidableEq, Repr

/-- `flecs_meta_utils_parse_enum` (c_utils.c lines 803-816); the
`EcsEnum` component set on the type carries no feedback. -/
def flecs_meta_utils_parse_enum (desc : List Char) : CRes :=
  flecs_meta_utils_parse_constants false desc

/-- `flecs_meta_utils_parse_bitmask` (c_utils.c lines 818-826). -/
def flecs_meta_utils_parse_bitmask (desc : List Char) : CRes :=
  flecs_meta_utils_parse_constants true desc

/-- `ecs_meta_from_desc` (c_utils.c lines 828-862). -/
def ecs_meta_from_desc (env : MetaSymEnv) (kind : TypeKind) (desc : List Char)
    (st : Nat) : IntRes :=
  match kind with
  | TypeKind.EcsStructType =>
    match flecs_meta_utils_parse_struct env desc st with
    | IntRes.ub => IntRes.ub
    | IntRes.ret c => IntRes.ret (if c = 0 then 0 else -1)
  | TypeKind.EcsEnumType =>
    match flecs_meta_utils_parse_enum desc with
    | CRes.ub => IntRes.ub
    | CRes.done c _ => IntRes.ret (if c = 0 then 0 else -1)
  | TypeKind.EcsBitmaskType =>
    match flecs_meta_utils_parse_bitmask desc with
    | CRes.ub => IntRes.ub
    | CRes.done c _ => IntRes.ret (if c = 0 then 0 else -1)
  | _ => IntRes.ret 0

/-- A concrete environment whose symbol table resolves nothing; the
builtin ids are arbitrary distinct nonzero values. -/
def c5Env : MetaSymEnv :=
  ⟨fun _ => 0, 1, 2, 3, 4, 5, 6, 7, 8, 9, 10, 11, 12, 13, 14, 15, 16⟩

/-- The struct description with a member missing its `;` terminator. -/
def c5Input : List Char := obr :: cs "int32_t x" ++ [cbr]

/-- C5: a member that fails to parse is not propagated.  On the
description with a missing `;`, `flecs_meta_utils_parse_member` reports
the error and returns NULL with the error flag still false - only
`flecs_meta_utils_open_scope` ever sets that flag - so the loop in
`flecs_meta_utils_parse_struct` exits cleanly and `ecs_meta_from_desc`
returns 0, not the -1 the claim requires for every member parse
failure. -/
theorem c5_member_error_swallowed :
    flecs_meta_utils_parse_member c5Input c5Input = MemberRes.stop false ∧
    ecs_meta_from_desc c5Env TypeKind.EcsStructType c5Input 0 = IntRes.ret 0 ∧
    IntRes.ret 0 ≠ IntRes.ret (-1) := by
  exact ⟨by decide, by decide, by decide⟩

/-- The identifier of 256 characters followed by a stop character. -/
def c8Input : List Char := List.replicate 256 'a' ++ [';']

set_option maxRecDepth 16384 in
/-- C8: `parse_c_identifier` writes 257 bytes - 256 copied characters
plus the NUL terminator - into the 256-byte identifier buffer on a
256-character identifier, exceeding the ECS_META_IDENTIFIER_LENGTH
bound the claim asserts; the copy loop has no bounds check. -/
theorem c8_buffer_overflow :
    buffBytes (parse_c_identifier c8Input false) = 257 ∧
    ¬ buffBytes (parse_c_identifier c8Input false) ≤ 256 := by
  exact ⟨by decide, by decide⟩

/-- Modelled from the spec: the component hook set of section 6 - a
construction hook producing the default value, absent when the slot is
left as raw zeroed memory, and whether a destroy hook is registered.
Type-erased component data is represented by integer values. -/
structure Hooks where
  construct : Option Int
  dtor : Bool
  deriving DecidableEq, Repr

/-- Modelled from the spec: the Column Vector of section 3 - element
layout hooks, capacity, an allocation generation standing for the
identity of the backing buffer (growth reallocates and so changes it),
and the live elements. -/
structure Column where
  hooks : Hooks
  cap : Nat
  alloc : Nat
  data : List Int
  deriving DecidableEq, Repr

/-- Modelled from the spec: the Table of section 3 - a handle id, the
canonical type set, the entity stored at each row, and one column per
component.  The implementation behind table.h is not in the excerpt. -/
structure Table where
  id : Nat
  typeSet : List Nat
  entities : List Nat
  columns : List Column
  deriving DecidableEq, Repr

/-- Modelled from the spec: the Record of section 3, a pair of table
reference and row index. -/
structure Record where
  table : Nat
  row : Nat
  deriving DecidableEq, Repr

/-- Modelled from the spec: the Entity Index of section 3, a mapping
from entity id to Record. -/
def EntityIndex : Type := Nat → Option Record

/-- Table invariant from section 3: every column holds exactly as many
elements as there are rows, within its capacity. -/
def wfTable (t : Table) : Prop :=
  ∀ c ∈ t.columns, c.data.length = t.entities.length ∧ c.data.length ≤ c.cap

instance : DecidablePred wfTable := fun t =>
  List.decidableBAll _ t.columns

/-- Modelled from the spec: `ecs_table_count` returns the number of
records in the table (table.h lines 64-75). -/
def ecs_table_count (t : Table) : Nat := t.entities.length

/-- Default value of a new slot: the construction hook result, or raw
zeroed memory when no hook exists. -/
def defaultVal (h : Hooks) : Int := h.construct.getD 0

/-- Append one element slot to a column, growing the capacity
geometrically (doubling, with a minimum of one) and reallocating -
changing the allocation generation - when the column is full. -/
def colPush (c : Column) (v : Int) : Column :=
  if c.data.length = c.cap then
    { c with cap := max 1 (2 * c.cap), alloc := c.alloc + 1, data := c.data ++ [v] }
  else { c with data := c.data ++ [v] }

/-- Modelled from the spec: `ecs_table_insert` (table.h lines 34-62)
appends one default-initialized slot to every column, adds the entity
to the new row, and returns a Record of this table and the former
count.  The entity and record pairing precondition is a caller contract
outside the model. -/
def ecs_table_insert (t : Table) (entity : Nat) : Table × Record :=
  ({ t with entities := t.entities ++ [entity],
            columns := t.columns.map fun c => colPush c (defaultVal c.hooks) },
   ⟨t.id, t.entities.length⟩)

/-- Swap-remove on one column: the last element is moved into the
removed row and the vector is shrunk by one. -/
def colRemove (i : Nat) (c : Column) : Column :=
  { c with data := (c.data.set i (c.data.getLastD 0)).dropLast }

/-- Point one entity at a new record, leaving every other entry of the
index unchanged. -/
def updateIndex (idx : EntityIndex) (e : Nat) (r : Record) : EntityIndex :=
  fun x => if x = e then some r else idx x

/-- Modelled from the spec: remove(row) of section 4.2 - swap-remove
moving the last row into the removed row for every column, invoking the
destructor hook on the vacated last slot where present (returned as the
list of column indices whose hook ran), updating the Record of the
entity that occupied the last row, and decrementing the count; removing
the last row is a pure truncation and updates no Record. -/
def ecs_table_remove (t : Table) (idx : EntityIndex) (i : Nat) :
    Table × EntityIndex × List Nat :=
  let t2 : Table := { t with entities := (t.entities.set i (t.entities.getLastD 0)).dropLast,
                             columns := t.columns.map (colRemove i) }
  let idx2 := if i + 1 = t.entities.length then idx
              else updateIndex idx (t.entities.getLastD 0) ⟨t.id, i⟩
  let log := (List.range t.columns.length).filter fun k =>
    (((t.columns.get? k).map fun c => c.hooks.dtor).getD false)
  (t2, idx2, log)

/-- Modelled from the spec: `ecs_table_get_column` (table.h lines
95-109) exposes the raw column; the handle is the allocation generation
paired with the data, and is invalidated when a later growth changes
the generation. -/
def ecs_table_get_column (t : Table) (k : Nat) : Option (Nat × List Int) :=
  (t.columns.get? k).map fun c => (c.alloc, c.data)

/-- Modelled from the spec: `ecs_table_delete_column` (table.h lines
140-169) frees an arbitrary column vector, invoking the destructor
registered for the component at the given index on every live element
first, in row order (returned as the list of destroyed elements), and
does not modify the table. -/
def ecs_table_delete_column (t : Table) (k : Nat) (vec : List Int) :
    Table × List Int :=
  (t, if (((t.columns.get? k).map fun c => c.hooks.dtor).getD false) then vec else [])

/-- Overwrite one row of every column with a value, as the direct
record copy of section 4.4 does for in-range rows. -/
def writeRow (t : Table) (i : Nat) (v : Int) : Table :=
  { t with columns := t.columns.map fun c => { c with data := c.data.set i v } }

/-- Insert a fresh row and write a value into it at every column. -/
def insertWrite (t : Table) (v : Int) : Table :=
  writeRow (ecs_table_insert t 0).1 (ecs_table_count t) v

/-- Insert and write a sequence of values, one row each. -/
def insertWriteAll : Table → List Int → Table
  | t, [] => t
  | t, v :: vs => insertWriteAll (insertWrite t v) vs

/-- Modelled from the spec: canonicalization of a type set (section 3),
the ids sorted with duplicates removed. -/
def canonicalSet (l : List Nat) : List Nat :=
  List.insertionSort (· ≤ ·) l.dedup

/-- Lookup of a canonical set in the table registry. -/
def lookupRegistry : List (List Nat × Nat) → List Nat → Option Nat
  | [], _ => none
  | (s, h) :: rest, key => if s = key then some h else lookupRegistry rest key

/-- Modelled from the spec: the world as the table graph of section 4.1
- the component resolution collaborator (`none` when an id cannot be
resolved to a known layout), the registry from canonical type sets to
table handles, and the next fresh handle. -/
structure MetaWorld where
  resolve : List Char → Option Nat
  registry : List (List Nat × Nat)
  next : Nat

/-- Modelled from the spec: find_or_create(type_set) of section 4.1 -
return the existing table for the canonical set, else register a fresh
one under that set. -/
def find_or_create_table (w : MetaWorld) (ids : List Nat) : Nat × MetaWorld :=
  let key := canonicalSet ids
  match lookupRegistry w.registry key with
  | some h => (h, w)
  | none => (w.next, { w with registry := (key, w.next) :: w.registry, next := w.next + 1 })

/-- Split a comma-separated identifier list, keeping each segment. -/
def splitCommaAux : List Char → List Char → List (List Char)
  | acc, [] => [acc.reverse]
  | acc, c :: rest =>
    if c = ',' then acc.reverse :: splitCommaAux [] rest
    else splitCommaAux (c :: acc) rest

/-- Segments of a comma-separated list. -/
def splitComma (s : List Char) : List (List Char) := splitCommaAux [] s

/-- Resolve every name of the list, failing when any one fails. -/
def resolveAll (w : MetaWorld) : List (List Char) → Option (List Nat)
  | [] => some []
  | nm :: rest =>
    match w.resolve nm with
    | none => none
    | some i => (resolveAll w rest).map (i :: ·)

/-- Modelled from the spec: `ecs_table_from_str` (table.h lines 19-32)
- resolve the comma-separated component identifiers and find or create
the table for the resolved set; when any identifier cannot be resolved
the result is NULL (here `none`, after the reported unknown-type error)
and the world is left unchanged, so no table is registered. -/
def ecs_table_from_str (w : MetaWorld) (s : List Char) : Option Nat × MetaWorld :=
  match resolveAll w (splitComma s) with
  | none => (none, w)
  | some ids =>
    let r := find_or_create_table w ids
    (some r.1, r.2)

theorem get?_last_eq (l : List Int) (h : 0 < l.length) :
    l.get? (l.length - 1) = some (l.getLastD 0) := by
  rw [← List.getLast?_eq_get?, List.getLastD_eq_getLast?]
  cases hl : l.getLast? with
  | none =>
    have hnil := List.getLast?_eq_none_iff.mp hl
    subst hnil
    simp at h
  | some a => rfl

theorem dropLast_set_last (l : List Int) (x : Int) :
    (l.set (l.length - 1) x).dropLast = l.dropLast := by
  induction l with
  | nil => rfl
  | cons a l ih =>
    cases l with
    | nil => rfl
    | cons b l2 =>
      have hidx : (a :: b :: l2).length - 1 = (b :: l2).length - 1 + 1 := by
        simp
      rw [hidx]
      show (a :: (b :: l2).set ((b :: l2).length - 1) x).dropLast = _
      have hne : (b :: l2).set ((b :: l2).length - 1) x ≠ [] := by
        intro hf
        have := congrArg List.length hf
        simp at this
      rw [List.dropLast_cons_of_ne_nil hne, ih]
      exact (List.dropLast_cons_of_ne_nil (by simp : (b :: l2) ≠ [])).symm

theorem get?_dropLast (l : List Int) (j : Nat) (h : j < l.length - 1) :
    l.dropLast.get? j = l.get? j := by
  rw [List.dropLast_eq_take]
  exact List.get?_take h

/-- Data facts of a swap-removed column. -/
theorem colRemove_spec (c : Column) (i n : Nat) (hn : c.data.length = n)
    (h0 : 0 < n) (hi : i < n) :
    (colRemove i c).data.length = n - 1 ∧
    (i + 1 < n → (colRemove i c).data.get? i = c.data.get? (n - 1)) ∧
    (∀ j, j < n - 1 → j ≠ i → (colRemove i c).data.get? j = c.data.get? j) ∧
    (i + 1 = n → (colRemove i c).data = c.data.dropLast) := by
  refine ⟨?_, ?_, ?_, ?_⟩
  · simp [colRemove, hn]
  · intro hlt
    have h1 : (colRemove i c).data.get? i =
        (c.data.set i (c.data.getLastD 0)).get? i := by
      unfold colRemove
      exact get?_dropLast _ i (by simp [hn]; omega)
    have h2 := get?_last_eq c.data (by omega)
    rw [hn] at h2
    rw [h1, List.get?_set_eq_of_lt _ (by omega : i < c.data.length), h2]
  · intro j hj hne
    have h1 : (colRemove i c).data.get? j =
        (c.data.set i (c.data.getLastD 0)).get? j := by
      unfold colRemove
      exact get?_dropLast _ j (by simp [hn]; omega)
    rw [h1]
    exact List.get?_set_ne _ _ (fun hf => hne hf.symm)
  · intro heq
    unfold colRemove
    have : i = c.data.length - 1 := by omega
    rw [this, dropLast_set_last]

/-- C3: insert appends exactly one slot to every column, increments the
count, returns a Record of this table and the former count, and
default-initializes the new slot from the construction hook or as raw
zeroed memory. -/
theorem c3_insert_postcondition (t : Table) (e : Nat) (hw : wfTable t) :
    ecs_table_count (ecs_table_insert t e).1 = ecs_table_count t + 1 ∧
    (ecs_table_insert t e).2 = ⟨t.id, ecs_table_count t⟩ ∧
    ∀ k c, t.columns.get? k = some c →
      (ecs_table_insert t e).1.columns.get? k = some (colPush c (defaultVal c.hooks)) ∧
      (colPush c (defaultVal c.hooks)).data = c.data ++ [defaultVal c.hooks] ∧
      (colPush c (defaultVal c.hooks)).data.length = ecs_table_count t + 1 := by
  refine ⟨by simp [ecs_table_insert, ecs_table_count], rfl, ?_⟩
  intro k c hk
  have hdata : (colPush c (defaultVal c.hooks)).data = c.data ++ [defaultVal c.hooks] := by
    by_cases hc : c.data.length = c.cap <;> simp [colPush, hc]
  refine ⟨?_, hdata, ?_⟩
  · show (t.columns.map fun c => colPush c (defaultVal c.hooks)).get? k = _
    rw [List.get?_map, hk]
    rfl
  · rw [hdata]
    have hlen := (hw c (List.get?_mem hk)).1
    simp [ecs_table_count, hlen]

/-- A one-column empty table used to instantiate the insert theorem. -/
def c3Table : Table := ⟨5, [1], [], [⟨⟨some 7, false⟩, 0, 0, []⟩]⟩

/-- C3 witness: the postcondition at a concrete empty table, the
well-formedness hypothesis discharged by evaluation. -/
theorem c3_insert_postcondition_witness :
    ecs_table_count (ecs_table_insert c3Table 42).1 = ecs_table_count c3Table + 1 ∧
    (ecs_table_insert c3Table 42).2 = ⟨5, ecs_table_count c3Table⟩ :=
  ⟨(c3_insert_postcondition c3Table 42 (by decide)).1,
   (c3_insert_postcondition c3Table 42 (by decide)).2.1⟩

/-- C7: deleting a column invokes the destroy hook registered for the
component at that index exactly once per live element of the supplied
vector, in row order - the returned destruction log is the vector
itself - and does not modify the table. -/
theorem c7_delete_column (t : Table) (k : Nat) (vec : List Int) (c : Column)
    (hk : t.columns.get? k = some c) (hd : c.hooks.dtor = true) :
    (ecs_table_delete_column t k vec).2 = vec ∧
    (ecs_table_delete_column t k vec).1 = t := by
  constructor
  · unfold ecs_table_delete_column
    rw [hk]
    simp [hd]
  · rfl

/-- A one-column table whose component has a destroy hook. -/
def c7Table : Table := ⟨6, [2], [20], [⟨⟨none, true⟩, 1, 0, [55]⟩]⟩

/-- C7 witness: the delete-column contract at a concrete table and a
vector other than the installed column, hypotheses discharged by
evaluation. -/
theorem c7_delete_column_witness :
    (ecs_table_delete_column c7Table 0 [3, 4, 5]).2 = [3, 4, 5] ∧
    (ecs_table_delete_column c7Table 0 [3, 4, 5]).1 = c7Table :=
  c7_delete_column c7Table 0 [3, 4, 5] ⟨⟨none, true⟩, 1, 0, [55]⟩ (by decide) (by decide)

/-- Lists with the same members canonicalize to the same sorted
duplicate-free type set. -/
theorem canonicalSet_eq_of_mem_iff (l1 l2 : List Nat) (h : ∀ x, x ∈ l1 ↔ x ∈ l2) :
    canonicalSet l1 = canonicalSet l2 := by
  unfold canonicalSet
  have hperm : List.Perm l1.dedup l2.dedup := by
    rw [List.perm_ext_iff_of_nodup (List.nodup_dedup l1) (List.nodup_dedup l2)]
    intro a
    simp only [List.mem_dedup]
    exact h a
  exact List.eq_of_perm_of_sorted
    ((List.perm_insertionSort _ _).trans (hperm.trans (List.perm_insertionSort _ _).symm))
    (List.sorted_insertionSort _ _) (List.sorted_insertionSort _ _)

/-- C1: two find-or-create calls with component lists holding the same
set of ids, in any orders, yield the identical table handle - the
second call, made on the world returned by the first, finds the table
the first returned. -/
theorem c1_canonicalization (w : MetaWorld) (l1 l2 : List Nat)
    (h : ∀ x, x ∈ l1 ↔ x ∈ l2) :
    (find_or_create_table (find_or_create_table w l1).2 l2).1 =
      (find_or_create_table w l1).1 := by
  have hkey := canonicalSet_eq_of_mem_iff l1 l2 h
  cases hl : lookupRegistry w.registry (canonicalSet l1) with
  | some t => simp [find_or_create_table, ← hkey, hl]
  | none => simp [find_or_create_table, ← hkey, hl, lookupRegistry]

/-- C1 witness: the two orders of a concrete id pair on the empty
world, the same-membership hypothesis discharged pointwise. -/
theorem c1_canonicalization_witness :
    (find_or_create_table (find_or_create_table ⟨fun _ => none, [], 3⟩ [2, 1]).2 [1, 2]).1 =
      (find_or_create_table ⟨fun _ => none, [], 3⟩ [2, 1]).1 :=
  c1_canonicalization ⟨fun _ => none, [], 3⟩ [2, 1] [1, 2]
    (by intro x; simp [List.mem_cons]; tauto)

/-- Resolution of a name list fails when any one name fails. -/
theorem resolveAll_none (w : MetaWorld) :
    ∀ (names : List (List Char)) (nm : List Char), nm ∈ names →
      w.resolve nm = none → resolveAll w names = none := by
  intro names
  induction names with
  | nil => intro nm h; simp at h
  | cons a rest ih =>
    intro nm hmem hres
    rcases List.mem_cons.mp hmem with h | h
    · subst h; simp [resolveAll, hres]
    · cases ha : w.resolve a with
      | none => simp [resolveAll, ha]
      | some i => simp [resolveAll, ha, ih nm h hres]

/-- C6: when any component identifier of the comma-separated list
cannot be resolved to a known layout, `ecs_table_from_str` returns NULL
and the world is unchanged, so no table is registered and no partially
constructed table is observable. -/
theorem c6_unknown_type_atomicity (w : MetaWorld) (s : List Char)
    (nm : List Char) (hmem : nm ∈ splitComma s) (hres : w.resolve nm = none) :
    (ecs_table_from_str w s).1 = none ∧ (ecs_table_from_str w s).2 = w := by
  have h := resolveAll_none w (splitComma s) nm hmem hres
  constructor <;> simp [ecs_table_from_str, h]

/-- A world that resolves no component name. -/
def c6World : MetaWorld := ⟨fun _ => none, [], 0⟩

/-- C6 witness: the atomicity conclusion at a concrete two-component
string, hypotheses discharged by evaluation. -/
theorem c6_unknown_type_atomicity_witness :
    (ecs_table_from_str c6World (cs "Position,Velocity")).1 = none ∧
    (ecs_table_from_str c6World (cs "Position,Velocity")).2 = c6World :=
  c6_unknown_type_atomicity c6World (cs "Position,Velocity") (cs "Position")
    (by decide) rfl

/-- C2: swap-remove moves the last row into the removed row for every
column, runs the destructor on the vacated last slot where a destroy
hook is present, decrements the count by one, repoints the Record of
the entity that occupied the last row at the removed row while leaving
every other Record unchanged, and degenerates to a pure truncation with
no data movement and no Record update when the removed row is the last
row. -/
theorem c2_swap_remove (t : Table) (idx : EntityIndex) (i : Nat)
    (hw : wfTable t) (hn : 0 < ecs_table_count t) (hi : i < ecs_table_count t) :
    ecs_table_count (ecs_table_remove t idx i).1 = ecs_table_count t - 1 ∧
    (∀ k c, t.columns.get? k = some c →
      (ecs_table_remove t idx i).1.columns.get? k = some (colRemove i c) ∧
      (colRemove i c).data.length = ecs_table_count t - 1 ∧
      (i + 1 < ecs_table_count t →
        (colRemove i c).data.get? i = c.data.get? (ecs_table_count t - 1)) ∧
      (∀ j, j < ecs_table_count t - 1 → j ≠ i →
        (colRemove i c).data.get? j = c.data.get? j) ∧
      (i + 1 = ecs_table_count t → (colRemove i c).data = c.data.dropLast)) ∧
    (∀ k c, t.columns.get? k = some c →
      (k ∈ (ecs_table_remove t idx i).2.2 ↔ c.hooks.dtor = true)) ∧
    (i + 1 < ecs_table_count t →
      (ecs_table_remove t idx i).2.1 (t.entities.getLastD 0) = some ⟨t.id, i⟩ ∧
      ∀ e, e ≠ t.entities.getLastD 0 → (ecs_table_remove t idx i).2.1 e = idx e) ∧
    (i + 1 = ecs_table_count t → (ecs_table_remove t idx i).2.1 = idx) := by
  refine ⟨?_, ?_, ?_, ?_, ?_⟩
  · simp [ecs_table_remove, ecs_table_count]
  · intro k c hk
    have hlen : c.data.length = ecs_table_count t := (hw c (List.get?_mem hk)).1
    obtain ⟨h1, h2, h3, h4⟩ := colRemove_spec c i (ecs_table_count t) hlen hn hi
    refine ⟨?_, h1, h2, h3, h4⟩
    show (t.columns.map (colRemove i)).get? k = some (colRemove i c)
    rw [List.get?_map, hk]
    rfl
  · intro k c hk
    have hkl : k < t.columns.length := by
      by_contra hf
      rw [List.get?_eq_none.mpr (Nat.le_of_not_lt hf)] at hk
      exact Option.noConfusion hk
    show k ∈ (List.range t.columns.length).filter _ ↔ _
    rw [List.mem_filter, List.mem_range]
    rw [hk]
    simp [hkl]
  · intro hlt
    have hne : ¬ (i + 1 = t.entities.length) := by
      have hlt2 : i + 1 < t.entities.length := hlt
      omega
    have hproj : (ecs_table_remove t idx i).2.1 =
        updateIndex idx (t.entities.getLastD 0) ⟨t.id, i⟩ := by
      simp [ecs_table_remove, hne]
    rw [hproj]
    constructor
    · simp [updateIndex]
    · intro e he
      unfold updateIndex
      rw [if_neg he]
  · intro heq
    have heq2 : i + 1 = t.entities.length := heq
    simp [ecs_table_remove, heq2]

/-- The three-row table of the swap-remove example, rows for entities
10, 11 and 12. -/
def c2Table : Table := ⟨7, [1], [10, 11, 12], [⟨⟨none, true⟩, 4, 0, [100, 101, 102]⟩]⟩

/-- The entity index matching `c2Table`. -/
def c2Index : EntityIndex := fun e =>
  if e = 10 then some ⟨7, 0⟩
  else if e = 11 then some ⟨7, 1⟩
  else if e = 12 then some ⟨7, 2⟩
  else none

/-- C2 witness: removing row 1 of the three-row table repoints the
Record of entity 12 at row 1 and leaves all other Records unchanged,
hypotheses discharged by evaluation. -/
theorem c2_swap_remove_witness :
    (ecs_table_remove c2Table c2Index 1).2.1 (c2Table.entities.getLastD 0) =
      some ⟨c2Table.id, 1⟩ ∧
    ∀ e, e ≠ c2Table.entities.getLastD 0 →
      (ecs_table_remove c2Table c2Index 1).2.1 e = c2Index e :=
  (c2_swap_remove c2Table c2Index 1 (by decide) (by decide) (by decide)).2.2.2.1
    (by decide)

/-- Number of columns of a table. -/
def numCols (t : Table) : Nat := t.columns.length

/-- The value stored at column `k`, row `j`, read back by row index as
a Record-based access resolves it. -/
def rowVal (t : Table) (k j : Nat) : Option Int :=
  (t.columns.get? k).bind fun c => c.data.get? j

theorem colPush_data (c : Column) (v : Int) :
    (colPush c v).data = c.data ++ [v] := by
  by_cases hc : c.data.length = c.cap <;> simp [colPush, hc]

theorem colPush_len_le_cap (c : Column) (v : Int) (h : c.data.length ≤ c.cap) :
    (colPush c v).data.length ≤ (colPush c v).cap := by
  by_cases hc : c.data.length = c.cap <;> simp [colPush, hc] <;> omega

theorem insertWrite_count (t : Table) (v : Int) :
    ecs_table_count (insertWrite t v) = ecs_table_count t + 1 := by
  simp [insertWrite, writeRow, ecs_table_insert, ecs_table_count]

theorem insertWrite_numCols (t : Table) (v : Int) :
    numCols (insertWrite t v) = numCols t := by
  simp [insertWrite, writeRow, ecs_table_insert, numCols]

theorem insertWrite_wf (t : Table) (v : Int) (hw : wfTable t) :
    wfTable (insertWrite t v) := by
  intro c2 hc2
  have hc2' : c2 ∈ (t.columns.map fun c => colPush c (defaultVal c.hooks)).map
      fun c => { c with data := c.data.set (ecs_table_count t) v } := hc2
  obtain ⟨c1, hc1, hc1eq⟩ := List.mem_map.mp hc2'
  obtain ⟨c0, hc0, hc0eq⟩ := List.mem_map.mp hc1
  have h0 := hw c0 hc0
  subst hc0eq
  subst hc1eq
  have hents : (insertWrite t v).entities = t.entities ++ [0] := rfl
  constructor
  · show ((colPush c0 (defaultVal c0.hooks)).data.set (ecs_table_count t) v).length = _
    rw [List.length_set, colPush_data, List.length_append, hents,
      List.length_append]
    simp [h0.1]
  · show ((colPush c0 (defaultVal c0.hooks)).data.set (ecs_table_count t) v).length ≤ _
    rw [List.length_set]
    exact colPush_len_le_cap c0 _ h0.2

theorem writeRow_columns_get? (t : Table) (i : Nat) (v : Int) (k : Nat) :
    (writeRow t i v).columns.get? k =
      (t.columns.get? k).map fun c => { c with data := c.data.set i v } := by
  unfold writeRow
  exact List.get?_map _ _ _

theorem insert_columns_get? (t : Table) (e : Nat) (k : Nat) :
    (ecs_table_insert t e).1.columns.get? k =
      (t.columns.get? k).map fun c => colPush c (defaultVal c.hooks) := by
  unfold ecs_table_insert
  exact List.get?_map _ _ _

theorem rowVal_insertWrite_old (t : Table) (v : Int) (hw : wfTable t)
    (j : Nat) (hj : j < ecs_table_count t) (k : Nat) :
    rowVal (insertWrite t v) k j = rowVal t k j := by
  unfold rowVal insertWrite
  rw [writeRow_columns_get?, insert_columns_get?]
  cases hk : t.columns.get? k with
  | none => rfl
  | some c =>
    have hlen : c.data.length = ecs_table_count t := (hw c (List.get?_mem hk)).1
    show ((colPush c (defaultVal c.hooks)).data.set (ecs_table_count t) v).get? j =
      c.data.get? j
    rw [List.get?_set_ne _ _ (by omega : ecs_table_count t ≠ j), colPush_data]
    exact List.get?_append (by omega)

theorem rowVal_insertWrite_new (t : Table) (v : Int) (hw : wfTable t)
    (k : Nat) (hk : k < numCols t) :
    rowVal (insertWrite t v) k (ecs_table_count t) = some v := by
  unfold rowVal insertWrite
  rw [writeRow_columns_get?, insert_columns_get?]
  cases hkc : t.columns.get? k with
  | none =>
    rw [List.get?_eq_none] at hkc
    have hk2 : k < t.columns.length := hk
    exact absurd hk2 (Nat.not_lt.mpr hkc)
  | some c =>
    have hlen : c.data.length = ecs_table_count t := (hw c (List.get?_mem hkc)).1
    show ((colPush c (defaultVal c.hooks)).data.set (ecs_table_count t) v).get?
      (ecs_table_count t) = some v
    apply List.get?_set_eq_of_lt
    rw [colPush_data, List.length_append]
    simp [hlen]

theorem insertWriteAll_count (vals : List Int) :
    ∀ t : Table, ecs_table_count (insertWriteAll t vals) =
      ecs_table_count t + vals.length := by
  induction vals with
  | nil => intro t; rfl
  | cons v vs ih =>
    intro t
    show ecs_table_count (insertWriteAll (insertWrite t v) vs) = _
    rw [ih, insertWrite_count]
    simp
    omega

theorem rowVal_insertWriteAll_old (vals : List Int) :
    ∀ t : Table, wfTable t → ∀ j, j < ecs_table_count t → ∀ k,
      rowVal (insertWriteAll t vals) k j = rowVal t k j := by
  induction vals with
  | nil => intro t _ j _ k; rfl
  | cons v vs ih =>
    intro t hw j hj k
    show rowVal (insertWriteAll (insertWrite t v) vs) k j = _
    rw [ih (insertWrite t v) (insertWrite_wf t v hw) j
      (by rw [insertWrite_count]; omega)]
    exact rowVal_insertWrite_old t v hw j hj k

theorem insertWriteAll_readback (vals : List Int) :
    ∀ t : Table, wfTable t → ∀ j, j < vals.length → ∀ k, k < numCols t →
      rowVal (insertWriteAll t vals) k (ecs_table_count t + j) = vals.get? j := by
  induction vals with
  | nil => intro t _ j hj; exact absurd hj (by simp)
  | cons v vs ih =>
    intro t hw j hj k hk
    cases j with
    | zero =>
      show rowVal (insertWriteAll (insertWrite t v) vs) k (ecs_table_count t + 0) = some v
      rw [rowVal_insertWriteAll_old vs (insertWrite t v) (insertWrite_wf t v hw)
        (ecs_table_count t + 0) (by rw [insertWrite_count]; omega) k]
      simpa using rowVal_insertWrite_new t v hw k hk
    | succ j2 =>
      have harith : ecs_table_count t + (j2 + 1) =
          ecs_table_count (insertWrite t v) + j2 := by
        rw [insertWrite_count]; omega
      show rowVal (insertWriteAll (insertWrite t v) vs) k (ecs_table_count t + (j2 + 1)) =
        vs.get? j2
      rw [harith]
      exact ih (insertWrite t v) (insertWrite_wf t v hw) j2 (by simpa using hj) k
        (by rw [insertWrite_numCols]; exact hk)

/-- C4: a sequence of inserts with a value written into each new row
leaves every written value readable by its row index afterwards,
however many capacity growths happened along the way - Records stay
valid because they address rows, not memory; and an insert into a
full column reallocates, changing the allocation generation so that
raw column handles obtained before the growth no longer match. -/
theorem c4_growth_preserves_content (t : Table) (vals : List Int) (hw : wfTable t) :
    ecs_table_count (insertWriteAll t vals) = ecs_table_count t + vals.length ∧
    (∀ j, j < vals.length → ∀ k, k < numCols t →
      rowVal (insertWriteAll t vals) k (ecs_table_count t + j) = vals.get? j) ∧
    (∀ k c, t.columns.get? k = some c → c.data.length = c.cap →
      ((ecs_table_insert t 0).1.columns.get? k).map Column.alloc ≠ some c.alloc) := by
  refine ⟨insertWriteAll_count vals t, insertWriteAll_readback vals t hw, ?_⟩
  intro k c hk hfull
  have hkk : (ecs_table_insert t 0).1.columns.get? k =
      some (colPush c (defaultVal c.hooks)) := by
    show (t.columns.map fun c => colPush c (defaultVal c.hooks)).get? k = _
    rw [List.get?_map, hk]
    rfl
  rw [hkk]
  simp [colPush, hfull]

/-- A one-column empty table for the growth witness. -/
def c4Table : Table := ⟨9, [3], [], [⟨⟨none, false⟩, 0, 0, []⟩]⟩

/-- C4 witness: the count and readback conclusions at a concrete table
and value sequence whose three inserts trigger two reallocations,
hypotheses discharged by evaluation. -/
theorem c4_growth_preserves_content_witness :
    ecs_table_count (insertWriteAll c4Table [11, 22, 33]) =
      ecs_table_count c4Table + [11, 22, 33].length ∧
    rowVal (insertWriteAll c4Table [11, 22, 33]) 0 (ecs_table_count c4Table + 1) =
      [11, 22, 33].get? 1 :=
  ⟨(c4_growth_preserves_content c4Table [11, 22, 33] (by decide)).1,
   (c4_growth_preserves_content c4Table [11, 22, 33] (by decide)).2.1 1 (by decide)
     0 (by decide)⟩
